import Mathlib

/-!
Verification of the mana runtime core (sigil interner, managed heap with
mark-sweep collection, spell database, bytecode interpreter) against its
specification.  The Rust sources are shallowly embedded: each Rust function
becomes an executable Lean function over explicit state, machine integers
become `Nat` with an explicit `% 2 ^ 32` where the source performs a `u32`
cast, and panicking paths become `Option`.
-/

/-! ## Sigil interner (src/sigil.rs)

A `Sigil` is a `u32` identifier; we model its value as a `Nat` (always
`< 2 ^ 32` when produced by `intern`, which casts `usize` to `u32`).
Names are byte strings, modelled as lists of naturals.  The `HashMap`
`by_name` is modelled as an association list; the source only ever inserts
keys that are absent, so consing is an exact model of `HashMap::insert`
there. -/

/-- A sigil identifier: the value of the `u32` inside `Sigil(pub u32)`. -/
abbrev Sigil := Nat

/-- A name: the byte string inside `Arc<[u8]>`. -/
abbrev Name := List Nat

/-- The sigil database `Sigils { by_id, by_name }`. -/
structure Sigils where
  by_id : List Name
  by_name : List (Name × Sigil)
deriving DecidableEq

/-- `HashMap::get` on the association-list model of `by_name`. -/
def lookupName : List (Name × Sigil) → Name → Option Sigil
  | [], _ => none
  | (k, v) :: rest, n => if k = n then some v else lookupName rest n

/-- `Sigils::new`. -/
def Sigils.new : Sigils := ⟨[], []⟩

/-- `Sigils::name`: `self.by_id.get(sigil.0 as usize)`. -/
def Sigils.name (s : Sigils) (g : Sigil) : Option Name :=
  s.by_id.get? g

/-- `Sigils::intern`.  Returns the updated database and the sigil.  On the
fresh path the source computes `Sigil(self.by_id.len() as u32)`: the `usize`
length is truncated to 32 bits, hence the `% 2 ^ 32`. -/
def Sigils.intern (s : Sigils) (n : Name) : Sigils × Sigil :=
  match lookupName s.by_name n with
  | some g => (s, g)
  | none =>
      let g := s.by_id.length % 2 ^ 32
      (⟨s.by_id ++ [n], (n, g) :: s.by_name⟩, g)

/-- Interning a list of names in order (a client-visible intern history). -/
def internAll (s : Sigils) (ns : List Name) : Sigils :=
  ns.foldl (fun s n => (s.intern n).1) s

/-- A database state reachable from `Sigils::new` through `intern` calls. -/
def Sigils.Reachable (s : Sigils) : Prop :=
  ∃ ns : List Name, s = internAll Sigils.new ns

/-- The key database invariant: `by_name` sends a name to an index of
`by_id` that holds that very name. -/
def Sigils.Inv (s : Sigils) : Prop :=
  ∀ n g, lookupName s.by_name n = some g → s.by_id.get? g = some n

/-- Big-endian 4-byte encoding of `i`, injective below `2 ^ 32`; each entry is
a byte (`< 256`), so `enc i` is a legitimate `Arc<[u8]>` name. -/
def enc (i : Nat) : Name :=
  [i / 16777216 % 256, i / 65536 % 256, i / 256 % 256, i % 256]

/-- `2 ^ 32` pairwise distinct byte-string names: `[0,0,0,0]` followed by the
encodings of `1 .. 2 ^ 32 - 1`.  (`enc 0 = [0,0,0,0]`.) -/
def bigNames : List Name :=
  [0, 0, 0, 0] :: (List.range' 1 (2 ^ 32 - 1)).map enc

/-- The sigil database obtained by interning all `2 ^ 32` names of
`bigNames` into a fresh database.  Its `by_id` table has length `2 ^ 32`,
so the next fresh intern truncates to identifier `0`. -/
def bigSigils : Sigils := internAll Sigils.new bigNames

/-! ## Heap and data (src/datum/mod.rs, src/datum/heap.rs)

A `Box<DatumInner>` has a stable address; we model addresses as allocation
numbers.  `Heap.mem` is the memory: the datum record for every address ever
allocated (freeing does not erase the record, it only removes the address
from the vector — a freed record is simply never touched again on correct
traces).  `Heap.data` models the `RefCell<Vec<Box<DatumInner>>>`: the
addresses currently owned by the heap, in vector order.  A `Datum` handle
is an address. -/

/-- `DatumInner { mark, roots, enchantment, pointers, auxiliary }`;
`pointers` holds addresses (`NonNull<DatumInner>`), `auxiliary` bytes. -/
structure DatumInner where
  mark : Bool
  roots : Nat
  enchantment : Sigil
  pointers : List Nat
  auxiliary : List Nat
deriving DecidableEq

/-- The heap: memory plus the vector of owned addresses. -/
structure Heap where
  mem : List DatumInner
  data : List Nat
deriving DecidableEq

/-- `Heap::new`. -/
def Heap.new : Heap := ⟨[], []⟩

/-- A `Cell` write through a pointer: update the record at address `a`. -/
def updateDatum (mem : List DatumInner) (a : Nat) (f : DatumInner → DatumInner) :
    List DatumInner :=
  match mem.get? a with
  | none => mem
  | some d => mem.set a (f d)

/-- `Datum::enroot`: increment the roots count behind address `a` (the
returned handle is the address itself). -/
def Heap.enroot (h : Heap) (a : Nat) : Heap :=
  { h with mem := updateDatum h.mem a (fun d => { d with roots := d.roots + 1 }) }

/-- `Drop for Datum`: decrement the roots count behind the handle. -/
def Heap.dropHandle (h : Heap) (a : Nat) : Heap :=
  { h with mem := updateDatum h.mem a (fun d => { d with roots := d.roots - 1 }) }

/-- `Clone for Datum`: `enroot` on the same address; the clone is the same
address. -/
def Heap.cloneHandle (h : Heap) (a : Nat) : Heap × Nat :=
  (h.enroot a, a)

/-- `Heap::construct`: the new record, `mark = false`, `roots = 0`, and
copies of the pointer and auxiliary slices. -/
def Heap.construct (enchantment : Sigil) (pointers : List Nat)
    (auxiliary : List Nat) : DatumInner :=
  ⟨false, 0, enchantment, pointers, auxiliary⟩

/-- `Heap::allocate`: box the constructed record, push it onto the data
vector, and `enroot` the fresh address.  Returns the heap and the handle. -/
def Heap.allocate (h : Heap) (enchantment : Sigil) (pointers : List Nat)
    (auxiliary : List Nat) : Heap × Nat :=
  let adr := h.mem.length
  let h1 : Heap :=
    ⟨h.mem ++ [Heap.construct enchantment pointers auxiliary], h.data ++ [adr]⟩
  (h1.enroot adr, adr)

/-- The roots count at an address (`0` for a never-allocated address). -/
def Heap.rootsAt (h : Heap) (a : Nat) : Nat :=
  ((h.mem.get? a).map DatumInner.roots).getD 0

/-- One iteration of the `for i in Iterator::rev(0 .. data.len())` loop of
`Heap::collect_garbage`, at loop index `i`.  The state carries the heap and
the running `stat.data_freed`.  Steps match the numbered steps in the
source: mark if rooted; if marked, mark the direct pointees then unmark and
retain; else count it freed and `data.pop()` — note the source pops the
*tail* of the vector, whatever datum sits there. -/
def collectIter (st : Heap × Nat) (i : Nat) : Heap × Nat :=
  let h := st.1
  match h.data.get? i with
  | none => st
  | some adr =>
      match h.mem.get? adr with
      | none => st
      | some d0 =>
          let d1 := if d0.roots > 0 then { d0 with mark := true } else d0
          let mem1 := h.mem.set adr d1
          if d1.mark then
            let mem2 := d1.pointers.foldl
              (fun m p => updateDatum m p (fun d => { d with mark := true })) mem1
            let mem3 := updateDatum mem2 adr (fun d => { d with mark := false })
            (⟨mem3, h.data⟩, st.2)
          else
            (⟨mem1, h.data.dropLast⟩, st.2 + 1)

/-- `Heap::collect_garbage`.  Returns the final heap and the
`CollectStatistics { data_freed }` count. -/
def Heap.collect_garbage (h : Heap) : Heap × Nat :=
  (List.range h.data.length).reverse.foldl collectIter (h, 0)

/-- Modelled from the spec (P6): the direct pointees of an address. -/
def Heap.pointeesOf (h : Heap) (a : Nat) : List Nat :=
  ((h.mem.get? a).map DatumInner.pointers).getD []

/-- Modelled from the spec (P6): the currently rooted addresses. -/
def Heap.rootedAddrs (h : Heap) : List Nat :=
  h.data.filter (fun a => 0 < h.rootsAt a)

/-- Expand a frontier through direct pointees, `k` times. -/
def reachIter (h : Heap) : Nat → List Nat → List Nat
  | 0, s => s
  | k + 1, s => reachIter h k (s ++ s.flatMap h.pointeesOf)

/-- Modelled from the spec (P6): the addresses reachable (via `pointers`,
transitively) from some datum with `roots > 0`. -/
def reachableFromRoots (h : Heap) : List Nat :=
  reachIter h h.data.length h.rootedAddrs

/-! A concrete trace exercising the collector: allocate three data `A`, `B`,
`C` (addresses 0, 1, 2, no pointers), then drop the handle to `B`.  `B` is
unreachable garbage; `A` and `C` are rooted. -/

/-- Heap after allocating `A`. -/
def heapA : Heap × Nat := Heap.new.allocate 0 [] []

/-- Heap after allocating `A`, `B`. -/
def heapB : Heap × Nat := heapA.1.allocate 0 [] []

/-- Heap after allocating `A`, `B`, `C`. -/
def heapC : Heap × Nat := heapB.1.allocate 0 [] []

/-- Heap `[A (roots 1), B (roots 0), C (roots 1)]`: the handle to `B` has
been dropped. -/
def bugHeap : Heap := heapC.1.dropHandle heapB.2

/-! ## Instructions and spells (src/spell/code.rs, src/spell/mod.rs) -/

/-- `Local(pub u32)`: an index into a frame's local-variable array. -/
abbrev Local := Nat

/-- The instruction set.  (`from` and `to` are Lean keywords, hence `from_`, `to_`.) -/
inductive Instruction where
  | Copy (from_ : Local) (to_ : Local)
  | InvokeStatic (result : Local) (spellbook : Sigil) (spell : Sigil)
      (arguments : List Local)
  | InvokeDynamic (result : Local) (spell : Sigil) (receiver : Local)
      (arguments : List Local)
  | Return (result : Local)
deriving DecidableEq

/-- `SpellId { spellbook, spell, arity }`. -/
structure SpellId where
  spellbook : Sigil
  spell : Sigil
  arity : Nat
deriving DecidableEq

/-- `Spell { instructions, local_variables }`. -/
structure Spell where
  instructions : List Instruction
  local_variables : Nat
deriving DecidableEq

/-- `RedefinitionError`. -/
structure RedefinitionError : Type
deriving DecidableEq

/-- The spell database; the `HashMap<SpellId, Spell>` is modelled as an
association list (the source only inserts absent keys). -/
structure Spells where
  spells : List (SpellId × Spell)

/-- `HashMap::get` on the association-list model of `spells`. -/
def lookupSpell : List (SpellId × Spell) → SpellId → Option Spell
  | [], _ => none
  | (k, v) :: rest, i => if k = i then some v else lookupSpell rest i

/-- `Spells::new`. -/
def Spells.new : Spells := ⟨[]⟩

/-- `Spells::get`. -/
def Spells.get (s : Spells) (id : SpellId) : Option Spell :=
  lookupSpell s.spells id

/-- `Spells::insert`: reject an already-present id, otherwise record the
spell.  Returns the updated database together with the `Result`. -/
def Spells.insert (s : Spells) (id : SpellId) (sp : Spell) :
    Spells × Except RedefinitionError Unit :=
  if (s.get id).isSome then (s, .error ⟨⟩)
  else (⟨(id, sp) :: s.spells⟩, .ok ())

/-! ## Interpreter (src/interpret/call_stack.rs, src/interpret/mod.rs)

Handles in the locals array are heap addresses.  The source's panics
(program counter or local index out of bounds) are modelled as `none`; the
transient root-count traffic of handle clones inside the interpreter is not
observable in the returned mutation and is not modelled. -/

/-- `ProgramCounter { instructions, next_instruction }`. -/
structure ProgramCounter where
  instructions : List Instruction
  next_instruction : Nat
deriving DecidableEq

/-- `ProgramCounter::jump`. -/
def ProgramCounter.jump (pc : ProgramCounter) (target : Nat) : ProgramCounter :=
  ⟨pc.instructions, target⟩

/-- `ProgramCounter::advance`. -/
def ProgramCounter.advance (pc : ProgramCounter) : ProgramCounter :=
  pc.jump (pc.next_instruction + 1)

/-- `ProgramCounter::get`; `none` models the out-of-bounds panic. -/
def ProgramCounter.get (pc : ProgramCounter) : Option Instruction :=
  pc.instructions.get? pc.next_instruction

/-- `Call { callee, arguments, return_into }`; arguments are handles. -/
structure Call where
  callee : SpellId
  arguments : List Nat
  return_into : Local
deriving DecidableEq

/-- `CallStackMutation { jump, exit, call }`. -/
structure CallStackMutation where
  jump : ProgramCounter
  exit : Option Nat
  call : Option Call
deriving DecidableEq

/-- `arguments.iter().map(|l| local!(l)).collect()`: read the handle at each
listed local in order; `none` models the out-of-bounds panic. -/
def getLocals (locals : List Nat) : List Local → Option (List Nat)
  | [] => some []
  | l :: rest =>
      match locals.get? l with
      | none => none
      | some v => (getLocals locals rest).map (v :: ·)

/-- `interpret_instruction`.  The heap is read only to obtain the receiver's
enchantment on dynamic dispatch.  Returns the mutation together with the
(possibly written) locals array; `none` models the panics. -/
def interpret_instruction (h : Heap) (pc : ProgramCounter) (locals : List Nat) :
    Option (CallStackMutation × List Nat) :=
  match pc.get with
  | none => none
  | some instr =>
      match instr with
      | .Copy from_ to_ =>
          match locals.get? from_ with
          | none => none
          | some v =>
              if to_ < locals.length then
                some (⟨pc.advance, none, none⟩, locals.set to_ v)
              else none
      | .InvokeStatic result spellbook spell arguments =>
          match getLocals locals arguments with
          | none => none
          | some argument_values =>
              some (⟨pc.advance, none,
                     some ⟨⟨spellbook, spell, argument_values.length⟩,
                           argument_values, result⟩⟩, locals)
      | .InvokeDynamic result spell receiver arguments =>
          match locals.get? receiver with
          | none => none
          | some receiver_value =>
              match getLocals locals arguments with
              | none => none
              | some rest_values =>
                  let argument_values := receiver_value :: rest_values
                  match h.mem.get? receiver_value with
                  | none => none
                  | some d =>
                      some (⟨pc.advance, none,
                             some ⟨⟨d.enchantment, spell, argument_values.length⟩,
                                   argument_values, result⟩⟩, locals)
      | .Return result =>
          match locals.get? result with
          | none => none
          | some v => some (⟨pc, some v, none⟩, locals)

theorem Sigils.inv_new : Sigils.Inv Sigils.new := by
  intro n g h
  simp [lookupName, Sigils.new] at h

theorem length_le_intern (s : Sigils) (n : Name) :
    s.by_id.length ≤ (s.intern n).1.by_id.length := by
  unfold Sigils.intern
  cases h : lookupName s.by_name n <;> simp

theorem length_le_internAll (s : Sigils) (ns : List Name) :
    s.by_id.length ≤ (internAll s ns).by_id.length := by
  induction ns generalizing s with
  | nil => simp [internAll]
  | cons n rest ih =>
      calc s.by_id.length ≤ (s.intern n).1.by_id.length := length_le_intern s n
        _ ≤ (internAll (s.intern n).1 rest).by_id.length := ih _
        _ = (internAll s (n :: rest)).by_id.length := rfl

/-- One `intern` step preserves the invariant, provided the database never
grows past `2 ^ 32` names. -/
theorem Sigils.inv_intern (s : Sigils) (n : Name) (hinv : s.Inv)
    (hlen : (s.intern n).1.by_id.length < 2 ^ 32) : (s.intern n).1.Inv := by
  unfold Sigils.intern at *
  cases h : lookupName s.by_name n with
  | some g => simpa [h] using hinv
  | none =>
      simp only [h] at hlen ⊢
      simp only [List.length_append, List.length_cons, List.length_nil] at hlen
      intro m g hm
      simp only [lookupName] at hm
      split at hm
      · rename_i hnm
        subst hnm
        have hmod : s.by_id.length % 2 ^ 32 = s.by_id.length :=
          Nat.mod_eq_of_lt (by omega)
        have hg : g = s.by_id.length := by
          rw [hmod] at hm
          exact (Option.some_inj.mp hm).symm
        subst hg
        simp
      · rename_i hnm
        have h2 := hinv m g hm
        have hg : g < s.by_id.length := by
          rcases List.get?_eq_some.mp h2 with ⟨hlt, _⟩
          exact hlt
        rw [List.get?_append hg]
        exact h2

theorem Sigils.inv_internAll (ns : List Name) (s : Sigils) (hinv : s.Inv)
    (hlen : (internAll s ns).by_id.length < 2 ^ 32) : (internAll s ns).Inv := by
  induction ns generalizing s with
  | nil => simpa [internAll] using hinv
  | cons n rest ih =>
      have hstep : (internAll s (n :: rest)) = internAll (s.intern n).1 rest := rfl
      rw [hstep] at hlen ⊢
      refine ih _ ?_ hlen
      refine Sigils.inv_intern s n hinv ?_
      calc (s.intern n).1.by_id.length
          ≤ (internAll (s.intern n).1 rest).by_id.length := length_le_internAll _ _
        _ < 2 ^ 32 := hlen

/-- Reachable small databases satisfy the invariant. -/
theorem Sigils.inv_of_reachable (s : Sigils) (hr : s.Reachable)
    (hlen : s.by_id.length < 2 ^ 32) : s.Inv := by
  obtain ⟨ns, rfl⟩ := hr
  exact Sigils.inv_internAll ns Sigils.new Sigils.inv_new hlen

theorem enc_injOn {i j : Nat} (hi : i < 2 ^ 32) (hj : j < 2 ^ 32)
    (h : enc i = enc j) : i = j := by
  have h32 : (2 : Nat) ^ 32 = 4294967296 := by norm_num
  rw [h32] at hi hj
  simp only [enc, List.cons.injEq, and_true] at h
  omega

/-- Interning pairwise-distinct fresh names appends them to `by_id` in
order. -/
theorem internAll_by_id_of_fresh :
    ∀ (ns : List Name) (s : Sigils), ns.Nodup →
      (∀ n ∈ ns, lookupName s.by_name n = none) →
      (internAll s ns).by_id = s.by_id ++ ns := by
  intro ns
  induction ns with
  | nil => intro s _ _; simp [internAll]
  | cons n rest ih =>
      intro s hnd hf
      have hn : lookupName s.by_name n = none := hf n (by simp)
      rw [List.nodup_cons] at hnd
      have hstep : internAll s (n :: rest) = internAll (s.intern n).1 rest := rfl
      have hs1 : (s.intern n).1 =
          ⟨s.by_id ++ [n], (n, s.by_id.length % 2 ^ 32) :: s.by_name⟩ := by
        unfold Sigils.intern
        rw [hn]
      have hf' : ∀ m ∈ rest,
          lookupName (s.intern n).1.by_name m = none := by
        intro m hm
        rw [hs1]
        simp only [lookupName]
        rw [if_neg, hf m (by simp [hm])]
        intro heq
        exact hnd.1 (heq ▸ hm)
      rw [hstep, ih _ hnd.2 hf', hs1]
      simp

/-- A name absent from the database and not interned stays absent. -/
theorem lookupName_internAll_none :
    ∀ (ns : List Name) (s : Sigils) (n : Name), n ∉ ns →
      lookupName s.by_name n = none →
      lookupName (internAll s ns).by_name n = none := by
  intro ns
  induction ns with
  | nil => intro s n _ h; simpa [internAll] using h
  | cons m rest ih =>
      intro s n hnm hnone
      have hstep : internAll s (m :: rest) = internAll (s.intern m).1 rest := rfl
      rw [hstep]
      refine ih _ n (fun hmem => hnm (by simp [hmem])) ?_
      unfold Sigils.intern
      cases hm : lookupName s.by_name m with
      | some g => exact hnone
      | none =>
          simp only [lookupName]
          rw [if_neg, hnone]
          intro heq
          exact hnm (by simp [heq])

/-- An existing `by_name` entry survives any further interning. -/
theorem lookupName_internAll_some :
    ∀ (ns : List Name) (s : Sigils) (n : Name) (g : Sigil),
      lookupName s.by_name n = some g →
      lookupName (internAll s ns).by_name n = some g := by
  intro ns
  induction ns with
  | nil => intro s n g h; simpa [internAll] using h
  | cons m rest ih =>
      intro s n g hsome
      have hstep : internAll s (m :: rest) = internAll (s.intern m).1 rest := rfl
      rw [hstep]
      refine ih _ n g ?_
      unfold Sigils.intern
      cases hm : lookupName s.by_name m with
      | some g' => exact hsome
      | none =>
          simp only [lookupName]
          rw [if_neg, hsome]
          intro heq
          rw [heq, hsome] at hm
          exact Option.noConfusion hm

theorem bigNames_nodup : bigNames.Nodup := by
  have h32 : (2 : Nat) ^ 32 = 4294967296 := by norm_num
  unfold bigNames
  rw [List.nodup_cons]
  constructor
  · intro hmem
    rw [List.mem_map] at hmem
    obtain ⟨i, hi, henc⟩ := hmem
    rw [List.mem_range'] at hi
    obtain ⟨k, hk, rfl⟩ := hi
    have h0 : enc (1 + 1 * k) = enc 0 := by rw [henc]; rfl
    have := enc_injOn (by omega) (by omega) h0
    omega
  · apply List.Nodup.map_on
    · intro x hx y hy hxy
      rw [List.mem_range'] at hx hy
      obtain ⟨a, ha, rfl⟩ := hx
      obtain ⟨b, hb, rfl⟩ := hy
      have := enc_injOn (i := 1 + 1 * a) (j := 1 + 1 * b) (by omega) (by omega) hxy
      omega
    · exact List.nodup_range' 1 (2 ^ 32 - 1)

theorem bigSigils_by_id : bigSigils.by_id = bigNames := by
  have h := internAll_by_id_of_fresh bigNames Sigils.new bigNames_nodup
    (fun n _ => rfl)
  simpa [bigSigils, Sigils.new] using h

theorem internAll_cons (s : Sigils) (n : Name) (ns : List Name) :
    internAll s (n :: ns) = internAll (s.intern n).1 ns := rfl

theorem bigSigils_length : bigSigils.by_id.length = 2 ^ 32 := by
  have h32 : (2 : Nat) ^ 32 = 4294967296 := by norm_num
  rw [bigSigils_by_id]
  unfold bigNames
  rw [List.length_cons, List.length_map, List.length_range']
  omega

theorem bigSigils_fresh5 :
    lookupName bigSigils.by_name [1, 2, 3, 4, 5] = none := by
  apply lookupName_internAll_none
  · intro hmem
    unfold bigNames at hmem
    simp only [List.mem_cons] at hmem
    rcases hmem with h | h
    · exact absurd h (by decide)
    · rw [List.mem_map] at h
      obtain ⟨i, _, henc⟩ := h
      have h4 : (enc i).length = 4 := rfl
      rw [henc] at h4
      simp at h4
  · rfl

theorem bigSigils_lookup0 :
    lookupName bigSigils.by_name ([0, 0, 0, 0] : Name) = some 0 := by
  unfold bigSigils bigNames
  rw [internAll_cons]
  apply lookupName_internAll_some
  simp [Sigils.intern, Sigils.new, lookupName]

/-- C6 (amended): for every reachable sigil-database state holding fewer
than `2 ^ 32` names and every byte-string name `n`, looking up the sigil
returned by interning `n` yields exactly the interned name:
`name(intern(n)) = Some(n)`. -/
theorem sigil_roundtrip_of_small (s : Sigils) (hr : s.Reachable)
    (hlen : s.by_id.length < 2 ^ 32) (n : Name) :
    (s.intern n).1.name (s.intern n).2 = some n := by
  have hinv := Sigils.inv_of_reachable s hr hlen
  unfold Sigils.intern Sigils.name
  cases hl : lookupName s.by_name n with
  | some g =>
      simp only [hl]
      exact hinv n g hl
  | none =>
      simp only [hl]
      have hmod : s.by_id.length % 2 ^ 32 = s.by_id.length := Nat.mod_eq_of_lt hlen
      rw [hmod]
      simp

/-- C6 witness: interning into the empty database round-trips. -/
theorem sigil_roundtrip_of_small_witness :
    (Sigils.new.intern [1, 2]).1.name (Sigils.new.intern [1, 2]).2 = some [1, 2] :=
  sigil_roundtrip_of_small Sigils.new ⟨[], rfl⟩ (by norm_num [Sigils.new]) [1, 2]

/-- A fresh name appends to `by_id` and conses onto `by_name`; the new
sigil is the old length truncated to 32 bits. -/
theorem intern_fresh (s : Sigils) (n : Name)
    (h : lookupName s.by_name n = none) :
    s.intern n = (⟨s.by_id ++ [n], (n, s.by_id.length % 2 ^ 32) :: s.by_name⟩,
                  s.by_id.length % 2 ^ 32) := by
  unfold Sigils.intern
  rw [h]

/-- A known name returns its recorded sigil and leaves the state alone. -/
theorem intern_found (s : Sigils) (n : Name) (g : Sigil)
    (h : lookupName s.by_name n = some g) : s.intern n = (s, g) := by
  unfold Sigils.intern
  rw [h]

/-- Association-list lookup steps over a mismatching head. -/
theorem lookupName_cons_ne (k : Name) (v : Sigil) (rest : List (Name × Sigil))
    (n : Name) (h : ¬ k = n) :
    lookupName ((k, v) :: rest) n = lookupName rest n := by
  simp only [lookupName, if_neg h]

/-- In a database whose `by_id` table has length exactly `2 ^ 32`, a fresh
intern truncates the new identifier to `0` and the round-trip returns the
name in slot `0`. -/
theorem roundtrip_fails_at_overflow (s : Sigils) (n m0 : Name)
    (hfresh : lookupName s.by_name n = none)
    (hlen : s.by_id.length = 2 ^ 32)
    (hget : s.by_id.get? 0 = some m0)
    (hne : m0 ≠ n) :
    (s.intern n).1.name (s.intern n).2 ≠ some n := by
  rw [intern_fresh s n hfresh]
  simp only [Sigils.name]
  rw [hlen, Nat.mod_self]
  have hpos : 0 < s.by_id.length := by rw [hlen]; positivity
  rw [List.get?_append hpos, hget]
  intro h
  exact hne (Option.some_inj.mp h)

/-- `bigSigils` stores `[0,0,0,0]` in slot `0`. -/
theorem bigSigils_get0 : bigSigils.by_id.get? 0 = some [0, 0, 0, 0] := by
  rw [bigSigils_by_id]
  unfold bigNames
  rfl

/-- C6 counterexample: in the reachable database `bigSigils` holding
`2 ^ 32` names, interning the fresh name `[1,2,3,4,5]` truncates the new
identifier (`len as u32`) to `0`, so the round-trip returns `[0,0,0,0]`,
the name at slot `0`: the claim fails as stated. -/
theorem sigil_roundtrip_overflow_cex :
    (bigSigils.intern [1, 2, 3, 4, 5]).1.name (bigSigils.intern [1, 2, 3, 4, 5]).2 ≠
      some [1, 2, 3, 4, 5] :=
  roundtrip_fails_at_overflow bigSigils [1, 2, 3, 4, 5] [0, 0, 0, 0]
    bigSigils_fresh5 bigSigils_length bigSigils_get0 (by decide)

/-- C7 (amended): in any reachable sigil-database state holding fewer than
`2 ^ 32` names, interning `n1` and then `n2` yields equal sigils iff
`n1 = n2`. -/
theorem sigil_identity_of_small (s : Sigils) (hr : s.Reachable)
    (hlen : s.by_id.length < 2 ^ 32) (n1 n2 : Name) :
    (s.intern n1).2 = ((s.intern n1).1.intern n2).2 ↔ n1 = n2 := by
  have hinv := Sigils.inv_of_reachable s hr hlen
  have h32 : (2 : Nat) ^ 32 = 4294967296 := by norm_num
  have hmod : s.by_id.length % 2 ^ 32 = s.by_id.length := Nat.mod_eq_of_lt hlen
  unfold Sigils.intern
  cases h1 : lookupName s.by_name n1 with
  | some k1 =>
      have hb1 := hinv n1 k1 h1
      have hk1 : k1 < s.by_id.length := (List.get?_eq_some.mp hb1).1
      simp only [h1]
      cases h2 : lookupName s.by_name n2 with
      | some k2 =>
          simp only [h2]
          have hb2 := hinv n2 k2 h2
          constructor
          · intro hk
            rw [hk] at hb1
            rw [hb1] at hb2
            exact Option.some_inj.mp hb2
          · intro hn
            subst hn
            rw [h1] at h2
            exact Option.some_inj.mp h2
      | none =>
          simp only [h2, hmod]
          constructor
          · intro hk
            exact absurd (hk ▸ hk1) (Nat.lt_irrefl _)
          · intro hn
            subst hn
            rw [h1] at h2
            exact Option.noConfusion h2
  | none =>
      simp only [h1, hmod]
      by_cases hn : n1 = n2
      · subst hn
        simp only [lookupName, if_pos rfl]
        simp [hmod]
      · rw [show lookupName ((n1, s.by_id.length) :: s.by_name) n2 =
              lookupName s.by_name n2 from by simp only [lookupName, if_neg hn]]
        cases h2 : lookupName s.by_name n2 with
        | some k2 =>
            simp only [h2]
            have hb2 := hinv n2 k2 h2
            have hk2 : k2 < s.by_id.length := (List.get?_eq_some.mp hb2).1
            constructor
            · intro hk
              exact absurd (hk ▸ hk2) (Nat.lt_irrefl _)
            · intro hn'
              exact absurd hn' hn
        | none =>
            simp only [h2, List.length_append, List.length_cons, List.length_nil]
            constructor
            · intro hk
              rw [h32] at hk hlen
              have hk' : (s.by_id.length : Nat) =
                  (s.by_id.length + 1) % 4294967296 := hk
              exfalso
              omega
            · intro hn'
              exact absurd hn' hn

/-- C7 witness: two distinct names interned into a fresh database receive
distinct sigils. -/
theorem sigil_identity_of_small_witness :
    ((Sigils.new.intern [1]).2 = ((Sigils.new.intern [1]).1.intern [2]).2 ↔
      ([1] : Name) = [2]) :=
  sigil_identity_of_small Sigils.new ⟨[], rfl⟩ (by norm_num [Sigils.new]) [1] [2]

/-- In a database whose `by_id` table has length exactly `2 ^ 32`, a fresh
name receives the truncated sigil `0`, colliding with the name recorded at
identifier `0`. -/
theorem identity_fails_at_overflow (s : Sigils) (n m0 : Name)
    (hfresh : lookupName s.by_name n = none)
    (hlen : s.by_id.length = 2 ^ 32)
    (hl0 : lookupName s.by_name m0 = some 0)
    (hne : ¬ n = m0) :
    (s.intern n).2 = ((s.intern n).1.intern m0).2 := by
  rw [intern_fresh s n hfresh]
  rw [intern_found _ m0 0 (by rw [lookupName_cons_ne _ _ _ _ hne]; exact hl0)]
  rw [hlen, Nat.mod_self]

/-- C7 counterexample: in the reachable database `bigSigils` holding
`2 ^ 32` names, the fresh name `[1,2,3,4,5]` receives the truncated sigil
`0`, which is the sigil already held by the distinct name `[0,0,0,0]`: two
distinct names interned into the same database compare equal, refuting the
claim as stated. -/
theorem sigil_identity_overflow_cex :
    (bigSigils.intern [1, 2, 3, 4, 5]).2 =
        ((bigSigils.intern [1, 2, 3, 4, 5]).1.intern [0, 0, 0, 0]).2 ∧
      ([1, 2, 3, 4, 5] : Name) ≠ [0, 0, 0, 0] :=
  ⟨identity_fails_at_overflow bigSigils [1, 2, 3, 4, 5] [0, 0, 0, 0]
      bigSigils_fresh5 bigSigils_length bigSigils_lookup0 (by decide),
    by decide⟩

/-- The embedding reproduces the source's own unit tests
(`test_empty_heap`, `test_singleton_heap`, `test_pointers_heap`): the
`data_freed` counts agree with the asserted values at every step. -/
theorem collect_garbage_matches_source_tests :
    (Heap.new.collect_garbage.2 = 0) ∧
    (let h1 := (Heap.new.allocate 0 [] []).1
     let c1 := h1.collect_garbage
     let c2 := (c1.1.dropHandle 0).collect_garbage
     let c3 := c2.1.collect_garbage
     c1.2 = 0 ∧ c2.2 = 1 ∧ c3.2 = 0) ∧
    (let h1 := (Heap.new.allocate 0 [] []).1
     let h2 := (h1.allocate 0 [0] []).1
     let h3 := (h2.allocate 0 [1] []).1
     let h4 := (h3.allocate 0 [1, 2] []).1
     let h5 := (h4.dropHandle 0).dropHandle 2
     let c1 := h5.collect_garbage
     let c2 := (c1.1.dropHandle 3).collect_garbage
     let c3 := (c2.1.dropHandle 1).collect_garbage
     c1.2 = 0 ∧ c2.2 = 2 ∧ c3.2 = 2) := by
  decide

/-- C1: the claim that `collect_garbage` never frees a datum whose roots
count is positive fails on the code.  In `bugHeap` (a heap reached by three
allocations and one handle drop) the datum at address 2 has `roots = 1` and
sits in the data sequence, yet after `collect_garbage` it is gone: when the
dead datum at index 1 is processed, the source frees the vector *tail*
(`data.pop()`), which at that moment is the rooted datum 2. -/
theorem root_safety_bug :
    Heap.rootsAt bugHeap 2 = 1 ∧ 2 ∈ bugHeap.data ∧
      2 ∉ bugHeap.collect_garbage.1.data := by
  decide

/-- C2: the claim that `collect_garbage` frees exactly the data
unreachable from rooted data fails on the code.  In `bugHeap`, address 2 is
rooted (hence reachable) yet is removed, while address 1 is unreachable yet
survives. -/
theorem reclamation_bug :
    2 ∈ reachableFromRoots bugHeap ∧ 2 ∉ bugHeap.collect_garbage.1.data ∧
      1 ∉ reachableFromRoots bugHeap ∧ 1 ∈ bugHeap.collect_garbage.1.data := by
  decide

/-- C3: the claim that a datum found unmarked and unrooted occupies the
current tail slot and is the datum removed fails on the code.  In
`bugHeap` the only dead datum is address 1 (`roots = 0`, no datum has any
pointers), yet the surviving sequence is `[0, 1]`: the removal at loop
index 1 discarded the tail datum 2 instead of the dead datum 1, so the
datum removed is not the datum found dead. -/
theorem tail_slot_removal_bug :
    Heap.rootsAt bugHeap 1 = 0 ∧ Heap.rootsAt bugHeap 2 = 1 ∧
      bugHeap.mem.map DatumInner.pointers = [[], [], []] ∧
      bugHeap.collect_garbage.1.data = [0, 1] := by
  decide

/-- C4: the claim that an immediately repeated `collect_garbage` frees
nothing fails on the code.  Starting from `bugHeap`, the first collection
(wrongly) pops the rooted datum 2 and leaves the dead datum 1 in place, so
the second collection, with no intervening allocations or handle changes,
frees one datum instead of zero. -/
theorem idempotence_bug :
    bugHeap.collect_garbage.1.collect_garbage.2 = 1 := by
  decide

theorem enroot_mem (h : Heap) (a : Nat) (d : DatumInner)
    (hd : h.mem.get? a = some d) :
    (h.enroot a).mem = h.mem.set a { d with roots := d.roots + 1 } := by
  unfold Heap.enroot updateDatum
  rw [hd]

theorem enroot_data (h : Heap) (a : Nat) : (h.enroot a).data = h.data := rfl

/-- C5: `allocate` appends a fresh datum at the end of the data sequence,
with `roots = 1`, `mark = false`, the supplied enchantment and copies of
the pointer and auxiliary slices; every other address is untouched (in
particular all previously allocated data keep their positions). -/
theorem allocate_spec (h : Heap) (ench : Sigil) (ptrs aux : List Nat)
    (hp : ∀ p ∈ ptrs, p ∈ h.data) :
    (h.allocate ench ptrs aux).1.data = h.data ++ [(h.allocate ench ptrs aux).2] ∧
      (h.allocate ench ptrs aux).1.mem.get? (h.allocate ench ptrs aux).2 =
        some ⟨false, 1, ench, ptrs, aux⟩ ∧
      ∀ a, a ≠ (h.allocate ench ptrs aux).2 →
        (h.allocate ench ptrs aux).1.mem.get? a = h.mem.get? a := by
  have hc : (h.mem ++ [Heap.construct ench ptrs aux]).get? h.mem.length =
      some (Heap.construct ench ptrs aux) := List.get?_concat_length _ _
  have hmem : (h.allocate ench ptrs aux).1.mem =
      (h.mem ++ [Heap.construct ench ptrs aux]).set h.mem.length
        { Heap.construct ench ptrs aux with roots :=
            (Heap.construct ench ptrs aux).roots + 1 } := by
    unfold Heap.allocate
    exact enroot_mem _ _ _ hc
  have hadr : (h.allocate ench ptrs aux).2 = h.mem.length := rfl
  refine ⟨rfl, ?_, ?_⟩
  · rw [hmem, hadr]
    rw [List.get?_set_eq_of_lt]
    · rfl
    · simp
  · intro a ha
    rw [hadr] at ha
    rw [hmem]
    rw [List.get?_set_ne _ _ (fun hme => ha hme.symm)]
    rcases Nat.lt_or_ge a h.mem.length with hlt | hge
    · exact List.get?_append hlt
    · have hge' : h.mem.length < a := Nat.lt_of_le_of_ne hge (fun hme => ha hme.symm)
      rw [List.get?_eq_none.mpr (by simpa using hge'),
        List.get?_eq_none.mpr hge]

/-- C5 witness: allocating a datum with enchantment 4, one pointer to the
existing datum 0, and auxiliary `[9]` into a one-datum heap. -/
theorem allocate_spec_witness :
    ((Heap.new.allocate 3 [] [7]).1.allocate 4 [0] [9]).1.data =
        (Heap.new.allocate 3 [] [7]).1.data ++
          [((Heap.new.allocate 3 [] [7]).1.allocate 4 [0] [9]).2] ∧
      ((Heap.new.allocate 3 [] [7]).1.allocate 4 [0] [9]).1.mem.get?
          ((Heap.new.allocate 3 [] [7]).1.allocate 4 [0] [9]).2 =
        some ⟨false, 1, 4, [0], [9]⟩ ∧
      ∀ a, a ≠ ((Heap.new.allocate 3 [] [7]).1.allocate 4 [0] [9]).2 →
        ((Heap.new.allocate 3 [] [7]).1.allocate 4 [0] [9]).1.mem.get? a =
          (Heap.new.allocate 3 [] [7]).1.mem.get? a :=
  allocate_spec (Heap.new.allocate 3 [] [7]).1 4 [0] [9] (by decide)

theorem getLocals_length (locals : List Nat) :
    ∀ (ls : List Local) (vs : List Nat),
      getLocals locals ls = some vs → vs.length = ls.length := by
  intro ls
  induction ls with
  | nil =>
      intro vs h
      simp only [getLocals, Option.some_inj] at h
      rw [← h]
  | cons l rest ih =>
      intro vs h
      simp only [getLocals] at h
      cases hv : locals.get? l with
      | none => rw [hv] at h; exact Option.noConfusion h
      | some v =>
          rw [hv] at h
          cases hr : getLocals locals rest with
          | none => rw [hr] at h; exact Option.noConfusion h
          | some vs' =>
              rw [hr] at h
              simp only [Option.map_some', Option.some_inj] at h
              rw [← h]
              simp [ih vs' hr]

/-- C8: an `InvokeDynamic { result, spell, receiver, arguments }`
instruction with in-range locals yields a mutation whose jump is the PC
advanced by one, no exit, and a call on
`SpellId(enchantment(receiver), spell, 1 + |arguments|)` whose argument
list is the receiver handle followed by the handles at the listed locals
in order, returning into `result`. -/
theorem invoke_dynamic_spec (h : Heap) (pc : ProgramCounter) (locals : List Nat)
    (result : Local) (spell : Sigil) (receiver : Local) (arguments : List Local)
    (recv : Nat) (d : DatumInner) (argvals : List Nat)
    (hpc : pc.get = some (.InvokeDynamic result spell receiver arguments))
    (hrecv : locals.get? receiver = some recv)
    (hargs : getLocals locals arguments = some argvals)
    (hd : h.mem.get? recv = some d) :
    interpret_instruction h pc locals =
      some (⟨pc.advance, none,
             some ⟨⟨d.enchantment, spell, 1 + arguments.length⟩,
                   recv :: argvals, result⟩⟩, locals) := by
  unfold interpret_instruction
  simp only [hpc, hrecv, hargs, hd]
  have hlen := getLocals_length locals arguments argvals hargs
  simp [hlen, Nat.add_comm]

/-- C8 witness: dynamic dispatch on a receiver with enchantment 7. -/
theorem invoke_dynamic_spec_witness :
    interpret_instruction (Heap.new.allocate 7 [] []).1
        ⟨[Instruction.InvokeDynamic 1 5 0 []], 0⟩ [0, 0] =
      some (⟨⟨[Instruction.InvokeDynamic 1 5 0 []], 1⟩, none,
             some ⟨⟨7, 5, 1⟩, [0], 1⟩⟩, [0, 0]) :=
  invoke_dynamic_spec (Heap.new.allocate 7 [] []).1
    ⟨[Instruction.InvokeDynamic 1 5 0 []], 0⟩ [0, 0] 1 5 0 [] 0
    ⟨false, 1, 7, [], []⟩ [] rfl rfl rfl (by decide)

/-- C9: for every instruction, program counter and locals array, the
mutation returned by `interpret_instruction` never has both `exit` and
`call` set: the interpreter itself never produces the tail-call
combination. -/
theorem no_tail_call (h : Heap) (pc : ProgramCounter) (locals : List Nat)
    (m : CallStackMutation) (locals' : List Nat)
    (hres : interpret_instruction h pc locals = some (m, locals')) :
    m.exit = none ∨ m.call = none := by
  unfold interpret_instruction at hres
  cases hpc : pc.get with
  | none =>
      simp only [hpc] at hres
      exact Option.noConfusion hres
  | some instr =>
      simp only [hpc] at hres
      cases instr with
      | Copy from_ to_ =>
          cases hv : locals.get? from_ with
          | none => simp only [hv] at hres; exact Option.noConfusion hres
          | some v =>
              simp only [hv] at hres
              by_cases hto : to_ < locals.length
              · simp only [if_pos hto, Option.some_inj, Prod.mk.injEq] at hres
                rcases hres with ⟨hm, -⟩
                subst hm
                simp
              · simp only [if_neg hto] at hres
                exact Option.noConfusion hres
      | InvokeStatic result spellbook spell arguments =>
          cases ha : getLocals locals arguments with
          | none => simp only [ha] at hres; exact Option.noConfusion hres
          | some argvals =>
              simp only [ha, Option.some_inj, Prod.mk.injEq] at hres
              rcases hres with ⟨hm, -⟩
              subst hm
              simp
      | InvokeDynamic result spell receiver arguments =>
          cases hv : locals.get? receiver with
          | none => simp only [hv] at hres; exact Option.noConfusion hres
          | some recv =>
              simp only [hv] at hres
              cases ha : getLocals locals arguments with
              | none => simp only [ha] at hres; exact Option.noConfusion hres
              | some argvals =>
                  simp only [ha] at hres
                  cases hd : h.mem.get? recv with
                  | none => simp only [hd] at hres; exact Option.noConfusion hres
                  | some d =>
                      simp only [hd, Option.some_inj, Prod.mk.injEq] at hres
                      rcases hres with ⟨hm, -⟩
                      subst hm
                      simp
      | Return result =>
          cases hv : locals.get? result with
          | none => simp only [hv] at hres; exact Option.noConfusion hres
          | some v =>
              simp only [hv, Option.some_inj, Prod.mk.injEq] at hres
              rcases hres with ⟨hm, -⟩
              subst hm
              simp

/-- C9 witness: the mutation produced by a concrete `Copy` instruction. -/
theorem no_tail_call_witness :
    ((⟨⟨[Instruction.Copy 0 0], 1⟩, none, none⟩ : CallStackMutation).exit = none ∨
      (⟨⟨[Instruction.Copy 0 0], 1⟩, none, none⟩ : CallStackMutation).call = none) :=
  no_tail_call Heap.new ⟨[Instruction.Copy 0 0], 0⟩ [5]
    ⟨⟨[Instruction.Copy 0 0], 1⟩, none, none⟩ [5] (by decide)

/-- C10: when `insert` reports a `RedefinitionError`, the spell database is
unchanged: the state is identical, and `get` returns the same result for
every `SpellId` before and after the failed insert. -/
theorem insert_redefinition_unchanged (s : Spells) (id : SpellId) (sp : Spell)
    (herr : (s.insert id sp).2 = Except.error ⟨⟩) :
    (s.insert id sp).1 = s ∧ ∀ i, (s.insert id sp).1.get i = s.get i := by
  by_cases hc : (s.get id).isSome
  · refine ⟨?_, fun i => ?_⟩ <;> simp [Spells.insert, hc]
  · simp [Spells.insert, hc] at herr

/-- C10 witness: re-inserting an already-present `SpellId` fails and
preserves the database. -/
theorem insert_redefinition_unchanged_witness :
    ((Spells.new.insert ⟨1, 2, 0⟩ ⟨[], 0⟩).1.insert ⟨1, 2, 0⟩ ⟨[], 3⟩).1 =
        (Spells.new.insert ⟨1, 2, 0⟩ ⟨[], 0⟩).1 ∧
      ∀ i, ((Spells.new.insert ⟨1, 2, 0⟩ ⟨[], 0⟩).1.insert ⟨1, 2, 0⟩ ⟨[], 3⟩).1.get i =
        (Spells.new.insert ⟨1, 2, 0⟩ ⟨[], 0⟩).1.get i :=
  insert_redefinition_unchanged (Spells.new.insert ⟨1, 2, 0⟩ ⟨[], 0⟩).1
    ⟨1, 2, 0⟩ ⟨[], 3⟩ rfl
